import Mathlib

/-!
Verification of the lnk browser credential extraction engine.

Go strings are byte strings; they are modelled as `List Nat` (one entry per
byte, ASCII literals via `strBytes`). Go `time.Time` values are modelled as
abstract instants `Int`, with the distinguished zero value of `time.Time`
rendered as `none` in an `Option Int` (`IsZero` is exactly the `none` test).
External library primitives (AES-128 block en/decryption, PBKDF2) are
modelled as function parameters; everything the repository itself computes
is translated directly from the Go source.
-/

namespace Lnk

/-- Byte string of an ASCII string literal. -/
def strBytes (s : String) : List Nat := s.data.map Char.toNat

/-- Error message of cookiesToCredentials when the scanned li_at value is empty. -/
def liAtMissingMsg : List Nat :=
  strBytes "li_at cookie not found. Make sure you are logged into LinkedIn in your browser"

/-- Error message of cookiesToCredentials when the scanned JSESSIONID value is empty. -/
def jsessMissingMsg : List Nat :=
  strBytes "JSESSIONID cookie not found. Make sure you are logged into LinkedIn in your browser"

/-- Error message of readChromeCookies when the domain query returns no rows. -/
def chromeNoCookiesMsg : List Nat :=
  strBytes "no LinkedIn cookies found in Chrome. Make sure you are logged into LinkedIn"

/-- Cookie name of the long-lived LinkedIn session token. -/
def liAtName : List Nat := strBytes "li_at"

/-- Cookie name of the LinkedIn session identifier. -/
def jsessName : List Nat := strBytes "JSESSIONID"

/-- api.Credentials from internal/api/types.go. `expiresAt = none` models the
zero `time.Time`. -/
structure Credentials where
  liAt : List Nat
  jsessID : List Nat
  csrfToken : List Nat
  expiresAt : Option Int
deriving DecidableEq, Repr

/-- The zero value `api.Credentials{}`. -/
def emptyCreds : Credentials := ⟨[], [], [], none⟩

/-- Credentials.IsValid from internal/api/types.go, with the call to
`time.Now()` made explicit as the parameter `now`; `time.Now().After(e)`
holds exactly when `e < now`. -/
def Credentials.IsValid (c : Credentials) (now : Int) : Bool :=
  if c.liAt = [] ∨ c.jsessID = [] then false
  else
    match c.expiresAt with
    | none => true
    | some e => if e < now then false else true

/-- A browser cookie (struct Cookie in internal/auth). -/
structure Cookie where
  domain : List Nat
  name : List Nat
  value : List Nat
  path : List Nat
  expiresAt : Option Int
  isSecure : Bool
  isHTTPOnly : Bool
deriving DecidableEq, Repr

/-- strings.Trim(s, quote): remove all leading and trailing double-quote
bytes (34). -/
def trimQuotes (s : List Nat) : List Nat :=
  ((s.dropWhile (fun b => b == 34)).reverse.dropWhile (fun b => b == 34)).reverse

/-- One iteration of the cookie scan loop in cookiesToCredentials
(internal/auth, browser.go). -/
def updateCreds (creds : Credentials) (c : Cookie) : Credentials :=
  if c.name = liAtName then
    { creds with
      liAt := c.value
      expiresAt := match c.expiresAt with
        | some e => some e
        | none => creds.expiresAt }
  else if c.name = jsessName then
    { creds with
      jsessID := c.value
      csrfToken := trimQuotes c.value }
  else creds

/-- cookiesToCredentials from internal/auth: scan all cookies, then require
a non-empty li_at and a non-empty JSESSIONID. -/
def cookiesToCredentials (cookies : List Cookie) : Except (List Nat) Credentials :=
  let creds := cookies.foldl updateCreds emptyCreds
  if creds.liAt = [] then Except.error liAtMissingMsg
  else if creds.jsessID = [] then Except.error jsessMissingMsg
  else Except.ok creds

/-- C1. The claim says a credential whose expiration equals the check time is
not valid; the code uses the strict `time.Now().After`, so at `t = ExpiresAt`
the credential is still valid. Concrete refutation at expiry 5, check time 5. -/
theorem isValid_boundary_counterexample :
    ¬ (Credentials.IsValid ⟨strBytes "a", strBytes "b", [], some 5⟩ 5 = true ↔
       ((strBytes "a" ≠ []) ∧ (strBytes "b" ≠ []) ∧
        ((some (5 : Int) = (none : Option Int)) ∨
         ∃ e : Int, some (5 : Int) = some e ∧ (5 : Int) < e))) := by
  intro h
  have hv : Credentials.IsValid ⟨strBytes "a", strBytes "b", [], some 5⟩ 5 = true := by decide
  rcases (h.mp hv).2.2 with h0 | ⟨e, he, hlt⟩
  · exact Option.noConfusion h0
  · have : e = 5 := by
      have := Option.some.inj he
      omega
    omega

/-- C1 (amended). IsValid returns true iff both required secrets are
non-empty and the expiration, when set, is at or after the check time:
equality of expiration and check time is valid, because the code tests the
strict `time.Now().After(ExpiresAt)`. -/
theorem isValid_iff (c : Credentials) (t : Int) :
    c.IsValid t = true ↔
      (c.liAt ≠ [] ∧ c.jsessID ≠ [] ∧ ∀ e : Int, c.expiresAt = some e → t ≤ e) := by
  constructor
  · intro h
    unfold Credentials.IsValid at h
    by_cases hor : c.liAt = [] ∨ c.jsessID = []
    · rw [if_pos hor] at h
      exact absurd h (by simp)
    · rw [if_neg hor] at h
      push_neg at hor
      refine ⟨hor.1, hor.2, ?_⟩
      intro e he
      by_cases hlt : e < t
      · simp [he, hlt] at h
      · omega
  · rintro ⟨h1, h2, h3⟩
    unfold Credentials.IsValid
    have hor : ¬ (c.liAt = [] ∨ c.jsessID = []) := by
      rintro (h | h)
      · exact h1 h
      · exact h2 h
    rw [if_neg hor]
    cases hx : c.expiresAt with
    | none => rfl
    | some e =>
        have hle := h3 e hx
        have hnlt : ¬ e < t := by omega
        simp [hnlt]

/-- C1 witness: the amended theorem applied at a concrete credential and
check time. -/
theorem isValid_iff_witness :
    Credentials.IsValid ⟨strBytes "a", strBytes "b", [], some 7⟩ 7 = true ↔
      ((strBytes "a" ≠ []) ∧ (strBytes "b" ≠ []) ∧
       ∀ e : Int, (some (7 : Int) : Option Int) = some e → (7 : Int) ≤ e) :=
  isValid_iff ⟨strBytes "a", strBytes "b", [], some 7⟩ 7

/-- The value retained for cookie name `n` by the scan loop: the value of the
last cookie with that name, empty when none occurs. -/
def lastCookieValue (cookies : List Cookie) (n : List Nat) : List Nat :=
  cookies.foldl (fun a c => if c.name = n then c.value else a) []

/-- The expiration retained by the scan loop: that of the last li_at cookie
whose expiration is set. -/
def lastLiAtExpiry (cookies : List Cookie) : Option Int :=
  cookies.foldl
    (fun a c => if c.name = liAtName ∧ c.expiresAt ≠ none then c.expiresAt else a) none

theorem liAt_ne_jsess : liAtName ≠ jsessName := by decide

theorem jsess_ne_liAt : jsessName ≠ liAtName := by decide

theorem updateCreds_liAt (creds : Credentials) (c : Cookie) :
    (updateCreds creds c).liAt = if c.name = liAtName then c.value else creds.liAt := by
  unfold updateCreds
  by_cases h1 : c.name = liAtName
  · simp [h1]
  · by_cases h2 : c.name = jsessName <;> simp [h1, h2, jsess_ne_liAt]

theorem updateCreds_jsessID (creds : Credentials) (c : Cookie) :
    (updateCreds creds c).jsessID = if c.name = jsessName then c.value else creds.jsessID := by
  unfold updateCreds
  by_cases h1 : c.name = liAtName
  · simp [h1, liAt_ne_jsess]
  · by_cases h2 : c.name = jsessName <;> simp [h1, h2, jsess_ne_liAt]

theorem updateCreds_expiresAt (creds : Credentials) (c : Cookie) :
    (updateCreds creds c).expiresAt =
      if c.name = liAtName ∧ c.expiresAt ≠ none then c.expiresAt else creds.expiresAt := by
  unfold updateCreds
  by_cases h1 : c.name = liAtName
  · cases hx : c.expiresAt <;> simp [h1, hx]
  · by_cases h2 : c.name = jsessName <;> simp [h1, h2, jsess_ne_liAt]

theorem foldl_liAt (cookies : List Cookie) (init : Credentials) :
    (cookies.foldl updateCreds init).liAt =
      cookies.foldl (fun a c => if c.name = liAtName then c.value else a) init.liAt := by
  induction cookies generalizing init with
  | nil => rfl
  | cons c cs ih =>
      simp only [List.foldl_cons]
      rw [ih, updateCreds_liAt]

theorem foldl_jsessID (cookies : List Cookie) (init : Credentials) :
    (cookies.foldl updateCreds init).jsessID =
      cookies.foldl (fun a c => if c.name = jsessName then c.value else a) init.jsessID := by
  induction cookies generalizing init with
  | nil => rfl
  | cons c cs ih =>
      simp only [List.foldl_cons]
      rw [ih, updateCreds_jsessID]

theorem foldl_expiresAt (cookies : List Cookie) (init : Credentials) :
    (cookies.foldl updateCreds init).expiresAt =
      cookies.foldl
        (fun a c => if c.name = liAtName ∧ c.expiresAt ≠ none then c.expiresAt else a)
        init.expiresAt := by
  induction cookies generalizing init with
  | nil => rfl
  | cons c cs ih =>
      simp only [List.foldl_cons]
      rw [ih, updateCreds_expiresAt]

theorem dropWhile_dropWhile (p : Nat → Bool) (l : List Nat) :
    (l.dropWhile p).dropWhile p = l.dropWhile p := by
  induction l with
  | nil => rfl
  | cons a l ih =>
      by_cases h : p a
      · simp [List.dropWhile_cons, h, ih]
      · simp [List.dropWhile_cons, h]

theorem dropWhile_head_false (p : Nat → Bool) (l : List Nat) :
    ∀ a, (l.dropWhile p).head? = some a → p a = false := by
  induction l with
  | nil => intro a h; exact Option.noConfusion h
  | cons b l ih =>
      intro a h
      by_cases hb : p b
      · exact ih a (by simpa [List.dropWhile_cons, hb] using h)
      · have : b = a := by
          simpa [List.dropWhile_cons, hb] using h
        subst this
        exact Bool.eq_false_iff.mpr hb

theorem dropWhile_suffix_exists (p : Nat → Bool) (l : List Nat) :
    ∃ w, l = w ++ l.dropWhile p := by
  induction l with
  | nil => exact ⟨[], rfl⟩
  | cons a l ih =>
      by_cases h : p a
      · obtain ⟨w, hw⟩ := ih
        exact ⟨a :: w, by simp [List.dropWhile_cons, h, ← hw]⟩
      · exact ⟨[], by simp [List.dropWhile_cons, h]⟩

theorem trimQuotes_idem (s : List Nat) : trimQuotes (trimQuotes s) = trimQuotes s := by
  unfold trimQuotes
  set q : Nat → Bool := fun b => b == 34 with hq
  set u := s.dropWhile q with hu
  set t := (u.reverse.dropWhile q).reverse with ht
  have hstep1 : t.dropWhile q = t := by
    obtain ⟨w, hw⟩ := dropWhile_suffix_exists q u.reverse
    have hut : u = t ++ w.reverse := by
      rw [ht, ← List.reverse_append, ← hw, List.reverse_reverse]
    cases hcase : t with
    | nil => rfl
    | cons a t0 =>
        have hhead : u.head? = some a := by
          rw [hut, hcase]
          rfl
        have hfa : q a = false := by
          apply dropWhile_head_false q s
          rw [← hu]
          exact hhead
        rw [List.dropWhile_cons, hfa]
        simp
  rw [hstep1]
  have hstep2 : t.reverse.dropWhile q = t.reverse := by
    rw [ht, List.reverse_reverse]
    exact dropWhile_dropWhile q u.reverse
  rw [hstep2, ht, List.reverse_reverse]

theorem foldl_csrf_inv (cookies : List Cookie) (init : Credentials)
    (h : init.csrfToken = trimQuotes init.jsessID) :
    (cookies.foldl updateCreds init).csrfToken =
      trimQuotes ((cookies.foldl updateCreds init).jsessID) := by
  induction cookies generalizing init with
  | nil => exact h
  | cons c cs ih =>
      simp only [List.foldl_cons]
      apply ih
      unfold updateCreds
      by_cases h1 : c.name = liAtName
      · simpa [h1] using h
      · by_cases h2 : c.name = jsessName <;> simp [h1, h2, jsess_ne_liAt, h]

/-- Helper: unpack a successful run of cookiesToCredentials into the scan
fold it returns. -/
theorem cookiesToCredentials_ok (cookies : List Cookie) (creds : Credentials)
    (h : cookiesToCredentials cookies = Except.ok creds) :
    creds = cookies.foldl updateCreds emptyCreds ∧
    creds.liAt ≠ [] ∧ creds.jsessID ≠ [] := by
  unfold cookiesToCredentials at h
  by_cases hL : (cookies.foldl updateCreds emptyCreds).liAt = []
  · rw [if_pos hL] at h
    exact Except.noConfusion h
  · rw [if_neg hL] at h
    by_cases hJ : (cookies.foldl updateCreds emptyCreds).jsessID = []
    · rw [if_pos hJ] at h
      exact Except.noConfusion h
    · rw [if_neg hJ] at h
      have := Except.ok.inj h
      subst this
      exact ⟨rfl, hL, hJ⟩

/-- C2. The claim predicts the JSESSIONID error whenever some non-empty
li_at cookie is present and no JSESSIONID cookie occurs; but with a later
empty-valued li_at cookie the scan ends with an empty li_at and the code
reports the li_at error instead. -/
theorem cookiesToCredentials_naming_counterexample :
    (∃ c ∈ [Cookie.mk [] liAtName (strBytes "x") [] none false false,
            Cookie.mk [] liAtName [] [] none false false],
        c.name = liAtName ∧ c.value ≠ []) ∧
    (∀ c ∈ [Cookie.mk [] liAtName (strBytes "x") [] none false false,
            Cookie.mk [] liAtName [] [] none false false],
        c.name ≠ jsessName) ∧
    cookiesToCredentials
        [Cookie.mk [] liAtName (strBytes "x") [] none false false,
         Cookie.mk [] liAtName [] [] none false false] =
      Except.error liAtMissingMsg ∧
    liAtMissingMsg ≠ jsessMissingMsg := by
  refine ⟨by decide, by decide, rfl, by decide⟩

/-- C2 (amended). Which error fires is decided by the values left after the
last-write-wins scan: the li_at error when the last-encountered li_at value
is empty or li_at never occurs, the JSESSIONID error when the scanned li_at
is non-empty but the scanned JSESSIONID value is empty or absent; on success
both stored secrets are the last-encountered values, and the two error
messages are distinct. -/
theorem cookiesToCredentials_error_naming (cookies : List Cookie) :
    (lastCookieValue cookies liAtName = [] →
        cookiesToCredentials cookies = Except.error liAtMissingMsg) ∧
    (lastCookieValue cookies liAtName ≠ [] → lastCookieValue cookies jsessName = [] →
        cookiesToCredentials cookies = Except.error jsessMissingMsg) ∧
    (lastCookieValue cookies liAtName ≠ [] → lastCookieValue cookies jsessName ≠ [] →
        ∃ creds, cookiesToCredentials cookies = Except.ok creds ∧
          creds.liAt = lastCookieValue cookies liAtName ∧
          creds.jsessID = lastCookieValue cookies jsessName) ∧
    liAtMissingMsg ≠ jsessMissingMsg := by
  have hL : (cookies.foldl updateCreds emptyCreds).liAt = lastCookieValue cookies liAtName :=
    foldl_liAt cookies emptyCreds
  have hJ : (cookies.foldl updateCreds emptyCreds).jsessID = lastCookieValue cookies jsessName :=
    foldl_jsessID cookies emptyCreds
  refine ⟨?_, ?_, ?_, by decide⟩
  · intro h
    unfold cookiesToCredentials
    rw [if_pos (hL.trans h)]
  · intro h1 h2
    unfold cookiesToCredentials
    rw [if_neg (fun hc => h1 (hL.symm.trans hc)), if_pos (hJ.trans h2)]
  · intro h1 h2
    refine ⟨cookies.foldl updateCreds emptyCreds, ?_, hL, hJ⟩
    unfold cookiesToCredentials
    rw [if_neg (fun hc => h1 (hL.symm.trans hc)),
        if_neg (fun hc => h2 (hJ.symm.trans hc))]

/-- C2 witness: the amended theorem applied to a concrete two-cookie list
containing both required names. -/
theorem cookiesToCredentials_error_naming_witness :
    ∃ creds,
      cookiesToCredentials
          [Cookie.mk [] liAtName (strBytes "x") [] none false false,
           Cookie.mk [] jsessName (strBytes "y") [] none false false] =
        Except.ok creds ∧
      creds.liAt =
        lastCookieValue
          [Cookie.mk [] liAtName (strBytes "x") [] none false false,
           Cookie.mk [] jsessName (strBytes "y") [] none false false] liAtName ∧
      creds.jsessID =
        lastCookieValue
          [Cookie.mk [] liAtName (strBytes "x") [] none false false,
           Cookie.mk [] jsessName (strBytes "y") [] none false false] jsessName :=
  (cookiesToCredentials_error_naming _).2.2.1 (by decide) (by decide)

/-- C9. On every successful normalization the anti-forgery token is the
stored JSESSIONID value with all enclosing double quotes stripped; the
stripping is idempotent, leaves abc unchanged and unquotes a quoted abc. -/
theorem csrf_derivation (cookies : List Cookie) (creds : Credentials) (s : List Nat)
    (h : cookiesToCredentials cookies = Except.ok creds) :
    creds.csrfToken = trimQuotes creds.jsessID ∧
    trimQuotes (trimQuotes s) = trimQuotes s ∧
    trimQuotes (strBytes "abc") = strBytes "abc" ∧
    trimQuotes (strBytes "\"abc\"") = strBytes "abc" := by
  obtain ⟨hc, -, -⟩ := cookiesToCredentials_ok cookies creds h
  subst hc
  exact ⟨foldl_csrf_inv cookies emptyCreds rfl, trimQuotes_idem s, by decide, by decide⟩

/-- C9 witness: the theorem applied to a concrete cookie list whose
JSESSIONID value is quoted. -/
theorem csrf_derivation_witness :
    (Credentials.mk (strBytes "x") (strBytes "\"y\"") (strBytes "y") none).csrfToken =
      trimQuotes (Credentials.mk (strBytes "x") (strBytes "\"y\"") (strBytes "y") none).jsessID ∧
    trimQuotes (trimQuotes (strBytes "\"z")) = trimQuotes (strBytes "\"z") ∧
    trimQuotes (strBytes "abc") = strBytes "abc" ∧
    trimQuotes (strBytes "\"abc\"") = strBytes "abc" :=
  csrf_derivation
    [Cookie.mk [] liAtName (strBytes "x") [] none false false,
     Cookie.mk [] jsessName (strBytes "\"y\"") [] none false false]
    (Credentials.mk (strBytes "x") (strBytes "\"y\"") (strBytes "y") none)
    (strBytes "\"z") rfl

/-- C10. The stored expiration is exactly that of the last li_at cookie
carrying a set expiration: JSESSIONID cookies never touch it, and a li_at
cookie with an unset expiration overwrites the stored secret while leaving
the expiration in place. -/
theorem expiresAt_provenance (cookies : List Cookie) (creds : Credentials)
    (h : cookiesToCredentials cookies = Except.ok creds) :
    creds.expiresAt = lastLiAtExpiry cookies ∧
    (∀ (creds0 : Credentials) (c : Cookie), c.name = jsessName →
        (updateCreds creds0 c).expiresAt = creds0.expiresAt) ∧
    (∀ (creds0 : Credentials) (c : Cookie), c.name = liAtName → c.expiresAt = none →
        (updateCreds creds0 c).expiresAt = creds0.expiresAt ∧
        (updateCreds creds0 c).liAt = c.value) := by
  obtain ⟨hc, -, -⟩ := cookiesToCredentials_ok cookies creds h
  subst hc
  refine ⟨foldl_expiresAt cookies emptyCreds, ?_, ?_⟩
  · intro creds0 c hn
    rw [updateCreds_expiresAt, if_neg]
    rintro ⟨h1, -⟩
    rw [hn] at h1
    exact absurd h1 (by decide)
  · intro creds0 c hn hx
    constructor
    · rw [updateCreds_expiresAt, if_neg]
      rintro ⟨-, h2⟩
      exact h2 hx
    · rw [updateCreds_liAt, if_pos hn]

/-- C10 witness: a list with an expiring li_at, a later li_at without
expiration and a JSESSIONID cookie keeps the first expiration. -/
theorem expiresAt_provenance_witness :
    (Credentials.mk (strBytes "y") (strBytes "z") (strBytes "z") (some 3)).expiresAt =
      lastLiAtExpiry
        [Cookie.mk [] liAtName (strBytes "x") [] (some 3) false false,
         Cookie.mk [] liAtName (strBytes "y") [] none false false,
         Cookie.mk [] jsessName (strBytes "z") [] (some 9) false false] ∧
    (∀ (creds0 : Credentials) (c : Cookie), c.name = jsessName →
        (updateCreds creds0 c).expiresAt = creds0.expiresAt) ∧
    (∀ (creds0 : Credentials) (c : Cookie), c.name = liAtName → c.expiresAt = none →
        (updateCreds creds0 c).expiresAt = creds0.expiresAt ∧
        (updateCreds creds0 c).liAt = c.value) :=
  expiresAt_provenance
    [Cookie.mk [] liAtName (strBytes "x") [] (some 3) false false,
     Cookie.mk [] liAtName (strBytes "y") [] none false false,
     Cookie.mk [] jsessName (strBytes "z") [] (some 9) false false]
    (Credentials.mk (strBytes "y") (strBytes "z") (strBytes "z") (some 3)) rfl

/-- The padding verification loop of removePKCS7Padding: for every index i
from len-padding to len-1, the byte there must equal the padding value. -/
def padOK (data : List Nat) (padding : Nat) : Bool :=
  (List.range padding).all (fun i => data.getD (data.length - padding + i) 0 == padding)

/-- removePKCS7Padding from internal/auth/browser_chrome.go: read the last
byte as the padding length, fall back to the unchanged data when it exceeds
the data length or the 16-byte AES block size or when the padding bytes do
not verify, otherwise strip it. -/
def removePKCS7Padding (data : List Nat) : List Nat :=
  if data = [] then data
  else
    let padding := data.getLastD 0
    if padding > data.length ∨ padding > 16 then data
    else if padOK data padding then data.take (data.length - padding)
    else data

theorem getD_drop (l : List Nat) (k i : Nat) : (l.drop k).getD i 0 = l.getD (k + i) 0 := by
  induction k generalizing l with
  | zero => simp
  | succ k ih =>
      cases l with
      | nil => simp
      | cons a l =>
          have harith : k + 1 + i = (k + i) + 1 := by omega
          rw [List.drop_succ_cons, ih l, harith, List.getD_cons_succ]

theorem all_iff_getD (l : List Nat) (q : Nat → Bool) :
    l.all q = true ↔ ∀ i, i < l.length → q (l.getD i 0) = true := by
  induction l with
  | nil => simp
  | cons a l ih =>
      simp only [List.all_cons, Bool.and_eq_true, ih, List.length_cons]
      constructor
      · rintro ⟨ha, hl⟩ i hi
        cases i with
        | zero => simpa using ha
        | succ i => simpa [List.getD_cons_succ] using hl i (by omega)
      · intro h
        refine ⟨by simpa using h 0 (by omega), fun i hi => ?_⟩
        simpa [List.getD_cons_succ] using h (i + 1) (by omega)

theorem padOK_eq_dropAll (data : List Nat) (n : Nat) (h : n ≤ data.length) :
    padOK data n = (data.drop (data.length - n)).all (fun b => b == n) := by
  have hlen : (data.drop (data.length - n)).length = n := by
    simp [List.length_drop]
    omega
  have h1 : padOK data n = true ↔
      ∀ i, i < n → (data.getD (data.length - n + i) 0 == n) = true := by
    unfold padOK
    rw [List.all_eq_true]
    constructor
    · intro hp i hi
      exact hp i (List.mem_range.mpr hi)
    · intro hp i hi
      exact hp i (List.mem_range.mp hi)
  have h2 : ((data.drop (data.length - n)).all (fun b => b == n)) = true ↔
      ∀ i, i < n → (data.getD (data.length - n + i) 0 == n) = true := by
    rw [all_iff_getD]
    constructor
    · intro hp i hi
      have := hp i (by rw [hlen]; exact hi)
      rwa [getD_drop] at this
    · intro hp i hi
      rw [hlen] at hi
      rw [getD_drop]
      exact hp i hi
  cases hb : padOK data n
  · cases hb2 : (data.drop (data.length - n)).all (fun b => b == n)
    · rfl
    · exact absurd (h1.mpr (h2.mp hb2)) (by rw [hb]; simp)
  · rw [h2.mpr (h1.mp hb)]

/-- C6. The claim omits the padding verification loop: for [1, 2] the
padding length 2 is within bounds, so the claim strips two bytes, but the
verification sees data[0] = 1 different from 2 and the code returns the data
unchanged. -/
theorem removePKCS7Padding_counterexample :
    ¬ (([1, 2] : List Nat).getLastD 0 > ([1, 2] : List Nat).length ∨
       ([1, 2] : List Nat).getLastD 0 > 16) ∧
    removePKCS7Padding [1, 2] ≠
      ([1, 2] : List Nat).take
        (([1, 2] : List Nat).length - ([1, 2] : List Nat).getLastD 0) := by
  exact ⟨by decide, by decide⟩

/-- C6 (amended). For non-empty data the final byte is read as the padding
length n; when n exceeds the data length or the 16-byte block size the data
is returned unchanged; otherwise the last n bytes are checked and stripped
only when they all equal n, any mismatch again returning the data
unchanged. -/
theorem removePKCS7Padding_spec (d : List Nat) :
    removePKCS7Padding d =
      if d = [] then d
      else if d.getLastD 0 > d.length ∨ d.getLastD 0 > 16 then d
      else if (d.drop (d.length - d.getLastD 0)).all (fun b => b == d.getLastD 0) then
        d.take (d.length - d.getLastD 0)
      else d := by
  simp only [removePKCS7Padding]
  by_cases h0 : d = []
  · rw [if_pos h0, if_pos h0]
  · rw [if_neg h0, if_neg h0]
    by_cases h1 : d.getLastD 0 > d.length ∨ d.getLastD 0 > 16
    · rw [if_pos h1, if_pos h1]
    · rw [if_neg h1, if_neg h1]
      push_neg at h1
      rw [padOK_eq_dropAll d (d.getLastD 0) h1.1]

def saltysalt : List Nat := strBytes "saltysalt"

/-- Error of getChromeKeyMacOS when the Keychain lookup fails; the dynamic
wrapped error text is elided. -/
def keychainFailMsg : List Nat := strBytes "failed to get Chrome key from Keychain"

def isSpaceByte (b : Nat) : Bool :=
  b == 32 || b == 9 || b == 10 || b == 11 || b == 12 || b == 13

/-- strings.TrimSpace restricted to ASCII whitespace. -/
def trimSpace (s : List Nat) : List Nat :=
  ((s.dropWhile isSpaceByte).reverse.dropWhile isSpaceByte).reverse

/-- getChromeKeyMacOS from internal/auth/browser_chrome.go. The external
`security find-generic-password` invocation is reified as `lookup` (`none`
models command failure) and PBKDF2-SHA1 as the parameter `kdf`, taking the
passphrase, salt, iteration count and output length. -/
def getChromeKeyMacOS (kdf : List Nat → List Nat → Nat → Nat → List Nat)
    (lookup : Option (List Nat)) : Except (List Nat) (List Nat) :=
  match lookup with
  | none => Except.error keychainFailMsg
  | some output => Except.ok (kdf (trimSpace output) saltysalt 1003 16)

/-- getChromeKeyLinux from internal/auth/browser_chrome.go: `none` models a
failing `secret-tool` invocation; a successful but empty output also takes
the hardcoded peanuts fallback. -/
def getChromeKeyLinux (kdf : List Nat → List Nat → Nat → Nat → List Nat)
    (lookup : Option (List Nat)) : Except (List Nat) (List Nat) :=
  match lookup with
  | some output =>
      if 0 < output.length then Except.ok (kdf (trimSpace output) saltysalt 1 16)
      else Except.ok (kdf (strBytes "peanuts") saltysalt 1 16)
  | none => Except.ok (kdf (strBytes "peanuts") saltysalt 1 16)

/-- C7. macOS derives the key from the Keychain passphrase with 1003
iterations and fails with no fallback when the lookup fails; Linux uses a
single iteration, falling back to the static passphrase peanuts, and always
returns a key. Both use the fixed salt and request 16 bytes. -/
theorem chromeKey_derivation (kdf : List Nat → List Nat → Nat → Nat → List Nat)
    (pw : List Nat) :
    getChromeKeyMacOS kdf none = Except.error keychainFailMsg ∧
    getChromeKeyMacOS kdf (some pw) = Except.ok (kdf (trimSpace pw) saltysalt 1003 16) ∧
    getChromeKeyLinux kdf (some pw) =
      Except.ok
        (kdf (if 0 < pw.length then trimSpace pw else strBytes "peanuts") saltysalt 1 16) ∧
    getChromeKeyLinux kdf none = Except.ok (kdf (strBytes "peanuts") saltysalt 1 16) ∧
    (∀ lookup, ∃ key, getChromeKeyLinux kdf lookup = Except.ok key) := by
  refine ⟨rfl, rfl, ?_, rfl, ?_⟩
  · by_cases h : 0 < pw.length <;> simp [getChromeKeyLinux, h]
  · intro lookup
    cases lookup with
    | none => exact ⟨_, rfl⟩
    | some out =>
        by_cases h : 0 < out.length
        · exact ⟨kdf (trimSpace out) saltysalt 1 16, by simp [getChromeKeyLinux, h]⟩
        · exact ⟨kdf (strBytes "peanuts") saltysalt 1 16, by simp [getChromeKeyLinux, h]⟩

/-- The index scan of readNullTerminatedString: advance end while in bounds
and the byte is not NUL. -/
def scanEnd (data : List Nat) (e : Nat) : Nat :=
  if h : e < data.length then
    if data.get ⟨e, h⟩ = 0 then e else scanEnd data (e + 1)
  else e
termination_by data.length - e

/-- readNullTerminatedString from internal/auth (Safari binary cookie
parser): empty result for an offset at or past the end, otherwise the slice
data[offset:end] where end is the scanned NUL position or the data
length. -/
def readNullTerminatedString (data : List Nat) (offset : Nat) : List Nat :=
  if data.length ≤ offset then []
  else (data.drop offset).take (scanEnd data offset - offset)

theorem scanEnd_ge : ∀ (k : Nat) (data : List Nat) (e : Nat),
    data.length - e ≤ k → e ≤ scanEnd data e := by
  intro k
  induction k with
  | zero =>
      intro data e h
      unfold scanEnd
      split
      · omega
      · exact le_refl e
  | succ k ih =>
      intro data e h
      unfold scanEnd
      split
      · split
        · exact le_refl e
        · have := ih data (e + 1) (by omega)
          omega
      · exact le_refl e

theorem scanEnd_take : ∀ (k : Nat) (data : List Nat) (e : Nat), data.length - e ≤ k →
    (data.drop e).take (scanEnd data e - e) =
      (data.drop e).takeWhile (fun b => !(b == 0)) := by
  intro k
  induction k with
  | zero =>
      intro data e h
      have : data.drop e = [] := List.drop_eq_nil_of_le (by omega)
      simp [this]
  | succ k ih =>
      intro data e h
      by_cases he : e < data.length
      · have hdrop : data.drop e = data.get ⟨e, he⟩ :: data.drop (e + 1) :=
          List.drop_eq_get_cons he
        unfold scanEnd
        rw [dif_pos he]
        by_cases hx : data.get ⟨e, he⟩ = 0
        · rw [if_pos hx, hdrop, hx]
          simp
        · rw [if_neg hx, hdrop]
          have hs : e + 1 ≤ scanEnd data (e + 1) := scanEnd_ge k data (e + 1) (by omega)
          have harith : scanEnd data (e + 1) - e = (scanEnd data (e + 1) - (e + 1)) + 1 := by
            omega
          rw [harith, List.take_succ_cons, List.takeWhile_cons]
          have hxb : (!(data.get ⟨e, he⟩ == 0)) = true := by
            simpa using hx
          rw [hxb]
          simp [ih data (e + 1) (by omega)]
      · have : data.drop e = [] := List.drop_eq_nil_of_le (by omega)
        simp [this]

/-- C8. readNullTerminatedString is a total function of the byte list and
offset: an offset at or beyond the data yields the empty string, otherwise
the result is the run of bytes from the offset up to but not including the
first NUL, extending to the end of the data when no NUL follows. -/
theorem readNullTerminatedString_spec (data : List Nat) (offset : Nat) :
    readNullTerminatedString data offset =
      if data.length ≤ offset then []
      else (data.drop offset).takeWhile (fun b => !(b == 0)) := by
  unfold readNullTerminatedString
  by_cases h : data.length ≤ offset
  · simp [h]
  · rw [if_neg h, if_neg h]
    exact scanEnd_take (data.length - offset) data offset (le_refl _)

/-- Bytewise XOR of two equal-length byte strings (truncating like
zipWith). -/
def zipXor (a b : List Nat) : List Nat := List.zipWith (fun x y => x ^^^ y) a b

/-- Fuel-driven block splitter; the fuel is an upper bound on the list
length, so the zero-fuel non-nil case is never reached in use. -/
def toBlocksFuel : Nat → List Nat → List (List Nat)
  | _, [] => []
  | 0, _ => []
  | Nat.succ k, bs => bs.take 16 :: toBlocksFuel k (bs.drop 16)

/-- Split a byte string into consecutive 16-byte blocks (the last block is
shorter when the length is not a multiple of 16). -/
def toBlocks (bs : List Nat) : List (List Nat) := toBlocksFuel bs.length bs

theorem toBlocksFuel_congr : ∀ (k1 : Nat) (k2 : Nat) (bs : List Nat),
    bs.length ≤ k1 → bs.length ≤ k2 → toBlocksFuel k1 bs = toBlocksFuel k2 bs := by
  intro k1
  induction k1 with
  | zero =>
      intro k2 bs h1 h2
      have : bs = [] := List.eq_nil_of_length_eq_zero (by omega)
      subst this
      cases k2 <;> rfl
  | succ k1 ih =>
      intro k2 bs h1 h2
      cases bs with
      | nil => cases k2 <;> rfl
      | cons a l =>
          cases k2 with
          | zero => simp at h2
          | succ k2 =>
              simp only [toBlocksFuel]
              rw [ih k2 ((a :: l).drop 16)
                (by rw [List.length_drop]; simp at h1 ⊢; omega)
                (by rw [List.length_drop]; simp at h2 ⊢; omega)]

theorem toBlocks_eq (bs : List Nat) :
    toBlocks bs = if bs = [] then [] else bs.take 16 :: toBlocks (bs.drop 16) := by
  cases bs with
  | nil => rfl
  | cons a l =>
      rw [if_neg (List.cons_ne_nil a l)]
      show toBlocksFuel (l.length + 1) (a :: l) = _
      simp only [toBlocksFuel]
      rw [toBlocksFuel_congr l.length ((a :: l).drop 16).length ((a :: l).drop 16)
        (by rw [List.length_drop, List.length_cons]; omega) (le_refl _)]
      rfl

theorem toBlocks_nil : toBlocks [] = [] := rfl

/-- CBC-mode encryption over an abstract 16-byte block cipher E: each
plaintext block is XORed with the previous ciphertext block (the IV
initially) before block encryption. -/
def cbcEncryptBlocks (E : List Nat → List Nat) (iv : List Nat) :
    List (List Nat) → List (List Nat)
  | [] => []
  | p :: ps =>
      let c := E (zipXor p iv)
      c :: cbcEncryptBlocks E c ps

/-- CBC-mode decryption (cipher.NewCBCDecrypter followed by CryptBlocks):
each decrypted block is XORed with the previous ciphertext block, the IV for
the first. -/
def cbcDecryptBlocks (D : List Nat → List Nat) (iv : List Nat)
    (cs : List (List Nat)) : List (List Nat) :=
  List.zipWith (fun c p => zipXor (D c) p) cs (iv :: cs)

/-- The fixed Chrome initialization vector: 16 space bytes. -/
def iv16 : List Nat := List.replicate 16 32

/-- decryptV10Cookie from internal/auth/browser_chrome.go, with the AES-128
block decryption under the 16-byte key abstracted as D (aes.NewCipher never
fails for a 16-byte key): reject inputs shorter than a block or unaligned,
otherwise CBC-decrypt under the fixed 16-space IV and strip PKCS7
padding. -/
def decryptV10Cookie (D : List Nat → List Nat) (encrypted : List Nat) :
    Except (List Nat) (List Nat) :=
  if encrypted.length < 16 then Except.error (strBytes "encrypted data too short")
  else if encrypted.length % 16 ≠ 0 then Except.error (strBytes "encrypted data not aligned")
  else Except.ok (removePKCS7Padding ((cbcDecryptBlocks D iv16 (toBlocks encrypted)).flatten))

/-- PKCS7 padding: append n copies of n where n = 16 - len mod 16 (a full
block of 16s when already aligned). -/
def pkcs7Pad (m : List Nat) : List Nat :=
  m ++ List.replicate (16 - m.length % 16) (16 - m.length % 16)

/-- CBC encryption at the byte level, the block-level counterpart of what
decryptV10Cookie reverses. -/
def cbcEncryptBytes (E : List Nat → List Nat) (iv : List Nat) (bs : List Nat) : List Nat :=
  (cbcEncryptBlocks E iv (toBlocks bs)).flatten

theorem zipXor_length (a b : List Nat) : (zipXor a b).length = min a.length b.length := by
  simp [zipXor]

theorem zipXor_zipXor (a b : List Nat) (h : a.length = b.length) :
    zipXor (zipXor a b) b = a := by
  induction a generalizing b with
  | nil => simp [zipXor]
  | cons x a ih =>
      cases b with
      | nil => simp at h
      | cons y b =>
          simp only [zipXor, List.zipWith_cons_cons]
          rw [Nat.xor_cancel_right]
          have := ih b (by simpa using h)
          simp only [zipXor] at this
          rw [this]

theorem toBlocks_join : ∀ (k : Nat) (bs : List Nat), bs.length ≤ k →
    (toBlocks bs).flatten = bs := by
  intro k
  induction k with
  | zero =>
      intro bs h
      have : bs = [] := List.eq_nil_of_length_eq_zero (by omega)
      subst this
      rw [toBlocks_nil]
      rfl
  | succ k ih =>
      intro bs h
      by_cases hb : bs = []
      · subst hb
        rw [toBlocks_nil]
        rfl
      · have hpos : 0 < bs.length := List.length_pos.mpr hb
        rw [toBlocks_eq, if_neg hb]
        simp only [List.flatten_cons]
        rw [ih (bs.drop 16) (by simp [List.length_drop]; omega)]
        exact List.take_append_drop 16 bs

theorem toBlocks_blockLen : ∀ (k : Nat) (bs : List Nat), bs.length ≤ k →
    16 ∣ bs.length → ∀ b ∈ toBlocks bs, b.length = 16 := by
  intro k
  induction k with
  | zero =>
      intro bs h hd b hb
      have : bs = [] := List.eq_nil_of_length_eq_zero (by omega)
      subst this
      rw [toBlocks_nil] at hb
      simp at hb
  | succ k ih =>
      intro bs h hd b hb
      by_cases hbs : bs = []
      · subst hbs
        rw [toBlocks_nil] at hb
        simp at hb
      · have hpos : 0 < bs.length := List.length_pos.mpr hbs
        have h16 : 16 ≤ bs.length := Nat.le_of_dvd hpos hd
        rw [toBlocks_eq, if_neg hbs] at hb
        rcases List.mem_cons.mp hb with hb1 | hb2
        · subst hb1
          rw [List.length_take]
          omega
        · exact ih (bs.drop 16) (by rw [List.length_drop]; omega)
            (by rw [List.length_drop]; exact (Nat.dvd_sub' hd (dvd_refl 16))) b hb2

theorem toBlocks_of_join : ∀ (bs : List (List Nat)), (∀ b ∈ bs, b.length = 16) →
    toBlocks bs.flatten = bs := by
  intro bs
  induction bs with
  | nil =>
      intro _
      exact toBlocks_nil
  | cons b bs ih =>
      intro h
      have hb : b.length = 16 := h b (List.mem_cons_self b bs)
      have hbne : b ++ bs.flatten ≠ [] := by
        intro hc
        have hlen2 : (b ++ bs.flatten).length = 0 := by
          rw [hc]
          rfl
        rw [List.length_append, hb] at hlen2
        omega
      simp only [List.flatten_cons]
      rw [toBlocks_eq, if_neg hbne]
      have ht : (b ++ bs.flatten).take 16 = b := by
        rw [← hb]
        exact List.take_left b bs.flatten
      have hd : (b ++ bs.flatten).drop 16 = bs.flatten := by
        rw [← hb]
        exact List.drop_left b bs.flatten
      rw [ht, hd, ih (fun x hx => h x (List.mem_cons_of_mem b hx))]

theorem cbcDecryptBlocks_cons (D : List Nat → List Nat) (iv c : List Nat)
    (l : List (List Nat)) :
    cbcDecryptBlocks D iv (c :: l) = zipXor (D c) iv :: cbcDecryptBlocks D c l := rfl

theorem cbcEncryptBlocks_blockLen (E : List Nat → List Nat)
    (hE : ∀ b, b.length = 16 → (E b).length = 16) :
    ∀ (ps : List (List Nat)) (iv : List Nat), iv.length = 16 →
      (∀ p ∈ ps, p.length = 16) → ∀ b ∈ cbcEncryptBlocks E iv ps, b.length = 16 := by
  intro ps
  induction ps with
  | nil =>
      intro iv _ _ b hb
      simp [cbcEncryptBlocks] at hb
  | cons p ps ih =>
      intro iv hiv hp b hb
      have hplen : p.length = 16 := hp p (List.mem_cons_self p ps)
      have hz : (zipXor p iv).length = 16 := by
        rw [zipXor_length, hplen, hiv]
        exact min_self 16
      have hc : (E (zipXor p iv)).length = 16 := hE _ hz
      simp only [cbcEncryptBlocks] at hb
      rcases List.mem_cons.mp hb with hb1 | hb2
      · subst hb1
        exact hc
      · exact ih (E (zipXor p iv)) hc (fun x hx => hp x (List.mem_cons_of_mem p hx)) b hb2

theorem cbcEncryptBlocks_length (E : List Nat → List Nat) :
    ∀ (ps : List (List Nat)) (iv : List Nat),
      (cbcEncryptBlocks E iv ps).length = ps.length := by
  intro ps
  induction ps with
  | nil => intro iv; rfl
  | cons p ps ih =>
      intro iv
      simp only [cbcEncryptBlocks, List.length_cons]
      rw [ih]

theorem cbc_roundtrip (E D : List Nat → List Nat)
    (hE : ∀ b, b.length = 16 → (E b).length = 16)
    (hD : ∀ b, b.length = 16 → D (E b) = b) :
    ∀ (ps : List (List Nat)) (iv : List Nat), iv.length = 16 →
      (∀ p ∈ ps, p.length = 16) →
      cbcDecryptBlocks D iv (cbcEncryptBlocks E iv ps) = ps := by
  intro ps
  induction ps with
  | nil => intro iv _ _; rfl
  | cons p ps ih =>
      intro iv hiv hp
      have hplen : p.length = 16 := hp p (List.mem_cons_self p ps)
      have hz : (zipXor p iv).length = 16 := by
        rw [zipXor_length, hplen, hiv]
        exact min_self 16
      simp only [cbcEncryptBlocks]
      rw [cbcDecryptBlocks_cons, hD _ hz,
          zipXor_zipXor p iv (by rw [hplen, hiv]),
          ih (E (zipXor p iv)) (hE _ hz) (fun x hx => hp x (List.mem_cons_of_mem p hx))]

theorem flatten_blockLen (bs : List (List Nat)) (h : ∀ b ∈ bs, b.length = 16) :
    bs.flatten.length = 16 * bs.length := by
  induction bs with
  | nil => rfl
  | cons b bs ih =>
      simp only [List.flatten_cons, List.length_append, List.length_cons]
      rw [h b (List.mem_cons_self b bs), ih (fun x hx => h x (List.mem_cons_of_mem b hx))]
      ring

theorem pkcs7Pad_dvd (m : List Nat) : 16 ∣ (pkcs7Pad m).length := by
  simp only [pkcs7Pad, List.length_append, List.length_replicate]
  omega

theorem pkcs7Pad_ne_nil (m : List Nat) : pkcs7Pad m ≠ [] := by
  intro h
  have := congrArg List.length h
  simp only [pkcs7Pad, List.length_append, List.length_replicate, List.length_nil] at this
  omega

theorem removePKCS7Padding_pkcs7Pad (m : List Nat) :
    removePKCS7Padding (pkcs7Pad m) = m := by
  set n := 16 - m.length % 16 with hn
  have hn1 : 1 ≤ n := by omega
  have hn16 : n ≤ 16 := by omega
  have hdata : pkcs7Pad m = m ++ List.replicate n n := rfl
  have hlen : (pkcs7Pad m).length = m.length + n := by
    simp [pkcs7Pad]
  have hlast : (pkcs7Pad m).getLastD 0 = n := by
    have hrep : List.replicate n n = List.replicate (n - 1) n ++ [n] := by
      have : n = (n - 1) + 1 := by omega
      rw [this]
      simp only [List.replicate_succ']
      congr 1
    rw [hdata, hrep, ← List.append_assoc]
    exact List.getLastD_concat _ _ _
  rw [removePKCS7Padding_spec]
  rw [if_neg (pkcs7Pad_ne_nil m), hlast, hlen]
  rw [if_neg (by omega)]
  have hdrop : (pkcs7Pad m).drop (m.length + n - n) = List.replicate n n := by
    have : m.length + n - n = m.length := by omega
    rw [this, hdata]
    exact List.drop_left m (List.replicate n n)
  rw [hdrop]
  have hall : (List.replicate n n).all (fun b => b == n) = true := by
    rw [List.all_eq_true]
    intro x hx
    have := List.eq_of_mem_replicate hx
    simp [this]
  rw [if_pos hall]
  have : m.length + n - n = m.length := by omega
  rw [this, hdata]
  exact List.take_left m (List.replicate n n)

/-- C3. Round-trip law: PKCS7-padding any byte string, CBC-encrypting it
under the fixed 16-space IV with a 16-byte block cipher, and applying
decryptV10Cookie (CBC decryption then padding removal) recovers the
original. AES-128 under a 16-byte key is modelled by the abstract pair
(E, D) of length-preserving mutually inverse 16-byte block maps. -/
theorem decryptV10_roundtrip (E D : List Nat → List Nat)
    (hE : ∀ b, b.length = 16 → (E b).length = 16)
    (hD : ∀ b, b.length = 16 → D (E b) = b)
    (m : List Nat) :
    decryptV10Cookie D (cbcEncryptBytes E iv16 (pkcs7Pad m)) = Except.ok m := by
  have hiv : iv16.length = 16 := by simp [iv16]
  have hpblen : ∀ b ∈ toBlocks (pkcs7Pad m), b.length = 16 :=
    toBlocks_blockLen (pkcs7Pad m).length (pkcs7Pad m) (le_refl _) (pkcs7Pad_dvd m)
  have heblen : ∀ b ∈ cbcEncryptBlocks E iv16 (toBlocks (pkcs7Pad m)), b.length = 16 :=
    cbcEncryptBlocks_blockLen E hE (toBlocks (pkcs7Pad m)) iv16 hiv hpblen
  have hpbne : toBlocks (pkcs7Pad m) ≠ [] := by
    rw [toBlocks_eq, if_neg (pkcs7Pad_ne_nil m)]
    exact List.cons_ne_nil _ _
  have hjoinlen : (cbcEncryptBytes E iv16 (pkcs7Pad m)).length =
      16 * (toBlocks (pkcs7Pad m)).length := by
    unfold cbcEncryptBytes
    rw [flatten_blockLen _ heblen, cbcEncryptBlocks_length]
  have hcount : 1 ≤ (toBlocks (pkcs7Pad m)).length := by
    cases hx : toBlocks (pkcs7Pad m) with
    | nil => exact absurd hx hpbne
    | cons a l => simp
  unfold decryptV10Cookie
  rw [if_neg (by omega), if_neg (by omega)]
  unfold cbcEncryptBytes
  rw [toBlocks_of_join _ heblen,
      cbc_roundtrip E D hE hD (toBlocks (pkcs7Pad m)) iv16 hiv hpblen,
      toBlocks_join (pkcs7Pad m).length (pkcs7Pad m) (le_refl _),
      removePKCS7Padding_pkcs7Pad]

/-- C3 witness: the round trip at the identity block cipher on a concrete
message. -/
theorem decryptV10_roundtrip_witness :
    decryptV10Cookie (fun b => b)
        (cbcEncryptBytes (fun b => b) iv16 (pkcs7Pad (strBytes "tok"))) =
      Except.ok (strBytes "tok") :=
  decryptV10_roundtrip (fun b => b) (fun b => b) (fun _ h => h) (fun _ _ => rfl)
    (strBytes "tok")

def v10Marker : List Nat := strBytes "v10"

def v11Marker : List Nat := strBytes "v11"

def darwinOS : List Nat := strBytes "darwin"

def linuxOS : List Nat := strBytes "linux"

/-- decryptChromeCookie from internal/auth/browser_chrome.go, parametrized
by runtime.GOOS and the abstract AES-128 block decryption D: empty values
come back empty, marker-prefixed values (v10 on macOS; v11 then v10 on
Linux) have the remainder CBC-decrypted, anything else is returned
unchanged. -/
def decryptChromeCookie (goos : List Nat) (D : List Nat → List Nat)
    (encrypted : List Nat) : Except (List Nat) (List Nat) :=
  if encrypted = [] then Except.ok []
  else if goos = darwinOS ∧ encrypted.length > 3 ∧ encrypted.take 3 = v10Marker then
    decryptV10Cookie D (encrypted.drop 3)
  else if goos = linuxOS ∧ encrypted.length > 3 ∧ encrypted.take 3 = v11Marker then
    decryptV10Cookie D (encrypted.drop 3)
  else if goos = linuxOS ∧ encrypted.length > 3 ∧ encrypted.take 3 = v10Marker then
    decryptV10Cookie D (encrypted.drop 3)
  else Except.ok encrypted

theorem take3_append (m r : List Nat) (h : m.length = 3) : (m ++ r).take 3 = m := by
  rw [← h]
  exact List.take_left m r

theorem drop3_append (m r : List Nat) (h : m.length = 3) : (m ++ r).drop 3 = r := by
  rw [← h]
  exact List.drop_left m r

theorem len_append_gt3 (m r : List Nat) (h : m.length = 3) (hr : r ≠ []) :
    (m ++ r).length > 3 := by
  rw [List.length_append, h]
  have : 0 < r.length := List.length_pos.mpr hr
  omega

/-- C5. The claim says v10 and v11 are treated identically; on macOS only
v10 is recognized and a v11-prefixed value is returned unchanged instead of
being decrypted (here the payload of sixteen spaces would decrypt to sixteen
zero bytes under the identity block cipher). -/
theorem decryptChromeCookie_v11_darwin_counterexample :
    decryptChromeCookie darwinOS (fun b => b) (v11Marker ++ iv16) =
      Except.ok (v11Marker ++ iv16) ∧
    decryptV10Cookie (fun b => b) ((v11Marker ++ iv16).drop 3) =
      Except.ok (List.replicate 16 0) ∧
    (Except.ok (v11Marker ++ iv16) : Except (List Nat) (List Nat)) ≠
      Except.ok (List.replicate 16 0) := by
  refine ⟨rfl, rfl, ?_⟩
  intro h
  exact absurd (Except.ok.inj h) (by decide)

/-- C5 (amended). Values empty or not longer than the 3-byte marker are
returned unchanged; on Linux the v10 and v11 markers are treated
identically, decrypting the remainder; on macOS only v10 is recognized and
a v11 value is returned unchanged; any value whose first three bytes match
neither marker is returned unchanged on every OS rather than failing
(recognized-marker values with malformed payloads yield an error from
decryptChromeCookie, which its caller converts back to the raw bytes). -/
theorem decryptChromeCookie_markers (D : List Nat → List Nat) (goos enc r : List Nat) :
    (enc.length ≤ 3 → decryptChromeCookie goos D enc = Except.ok enc) ∧
    (r ≠ [] →
      decryptChromeCookie linuxOS D (v10Marker ++ r) = decryptV10Cookie D r ∧
      decryptChromeCookie linuxOS D (v11Marker ++ r) = decryptV10Cookie D r ∧
      decryptChromeCookie darwinOS D (v10Marker ++ r) = decryptV10Cookie D r ∧
      decryptChromeCookie darwinOS D (v11Marker ++ r) = Except.ok (v11Marker ++ r)) ∧
    (enc.take 3 ≠ v10Marker → enc.take 3 ≠ v11Marker →
      decryptChromeCookie goos D enc = Except.ok enc) := by
  refine ⟨?_, ?_, ?_⟩
  · intro hlen
    unfold decryptChromeCookie
    by_cases he : enc = []
    · rw [if_pos he, he]
    · rw [if_neg he,
          if_neg (by rintro ⟨-, h2, -⟩; omega),
          if_neg (by rintro ⟨-, h2, -⟩; omega),
          if_neg (by rintro ⟨-, h2, -⟩; omega)]
  · intro hr
    have h10 : (v10Marker.length : Nat) = 3 := rfl
    have h11 : (v11Marker.length : Nat) = 3 := rfl
    refine ⟨?_, ?_, ?_, ?_⟩
    · unfold decryptChromeCookie
      rw [if_neg (by simp [v10Marker, strBytes]),
          if_neg (by rintro ⟨h1, -, -⟩; exact absurd h1 (by decide)),
          if_neg (by
            rintro ⟨-, -, h3⟩
            rw [take3_append _ _ h10] at h3
            exact absurd h3 (by decide)),
          if_pos ⟨rfl, len_append_gt3 _ _ h10 hr, take3_append _ _ h10⟩,
          drop3_append _ _ h10]
    · unfold decryptChromeCookie
      rw [if_neg (by simp [v11Marker, strBytes]),
          if_neg (by rintro ⟨h1, -, -⟩; exact absurd h1 (by decide)),
          if_pos ⟨rfl, len_append_gt3 _ _ h11 hr, take3_append _ _ h11⟩,
          drop3_append _ _ h11]
    · unfold decryptChromeCookie
      rw [if_neg (by simp [v10Marker, strBytes]),
          if_pos ⟨rfl, len_append_gt3 _ _ h10 hr, take3_append _ _ h10⟩,
          drop3_append _ _ h10]
    · unfold decryptChromeCookie
      rw [if_neg (by simp [v11Marker, strBytes]),
          if_neg (by
            rintro ⟨-, -, h3⟩
            rw [take3_append _ _ h11] at h3
            exact absurd h3 (by decide)),
          if_neg (by rintro ⟨h1, -, -⟩; exact absurd h1 (by decide)),
          if_neg (by rintro ⟨h1, -, -⟩; exact absurd h1 (by decide))]
  · intro h10 h11
    unfold decryptChromeCookie
    by_cases he : enc = []
    · rw [if_pos he, he]
    · rw [if_neg he,
          if_neg (by rintro ⟨-, -, h3⟩; exact h10 h3),
          if_neg (by rintro ⟨-, -, h3⟩; exact h11 h3),
          if_neg (by rintro ⟨-, -, h3⟩; exact h10 h3)]

/-- C5 witness: the amended theorem at concrete marker values with the
identity block cipher and a sixteen-space payload. -/
theorem decryptChromeCookie_markers_witness :
    decryptChromeCookie linuxOS (fun b => b) (v10Marker ++ iv16) =
      decryptV10Cookie (fun b => b) iv16 ∧
    decryptChromeCookie linuxOS (fun b => b) (v11Marker ++ iv16) =
      decryptV10Cookie (fun b => b) iv16 ∧
    decryptChromeCookie darwinOS (fun b => b) (v11Marker ++ iv16) =
      Except.ok (v11Marker ++ iv16) := by
  have h := (decryptChromeCookie_markers (fun b => b) [] [] iv16).2.1 (by decide)
  exact ⟨h.1, h.2.1, h.2.2.2⟩

/-- One row of the chromium cookies table as scanned by readChromeCookies:
name, encrypted value, host key, path, expires_utc, is_secure,
is_httponly. -/
structure ChromeRow where
  name : List Nat
  encryptedValue : List Nat
  hostKey : List Nat
  path : List Nat
  expiresUTC : Int
  isSecure : Int
  isHTTPOnly : Int
deriving DecidableEq, Repr

/-- chromeTimeToUnix from internal/auth/browser_chrome.go: 0 maps to the
zero time, otherwise microseconds since 1601 shifted to the Unix epoch. -/
def chromeTimeToUnix (chromeTime : Int) : Option Int :=
  if chromeTime = 0 then none else some (chromeTime - 11644473600000000)

/-- The loop body of readChromeCookies: decrypt the value, falling back to
the raw bytes when decryption errors, and convert the timestamp. -/
def cookieOfChromeRow (goos : List Nat) (D : List Nat → List Nat)
    (r : ChromeRow) : Cookie :=
  { domain := r.hostKey
    name := r.name
    value :=
      match decryptChromeCookie goos D r.encryptedValue with
      | Except.ok v => v
      | Except.error _ => r.encryptedValue
    path := r.path
    expiresAt := chromeTimeToUnix r.expiresUTC
    isSecure := r.isSecure == 1
    isHTTPOnly := r.isHTTPOnly == 1 }

/-- readChromeCookies from internal/auth/browser_chrome.go after the
domain-filtered query, acting on the returned rows: build the cookie list
and fail with the store-level message when it is empty. -/
def readChromeCookies (goos : List Nat) (D : List Nat → List Nat)
    (rows : List ChromeRow) : Except (List Nat) (List Cookie) :=
  let cookies := rows.map (cookieOfChromeRow goos D)
  if cookies = [] then Except.error chromeNoCookiesMsg else Except.ok cookies

/-- The extraction pipeline downstream of the query: read the rows, then
normalize into credentials. -/
def extractChromeFromRows (goos : List Nat) (D : List Nat → List Nat)
    (rows : List ChromeRow) : Except (List Nat) Credentials :=
  match readChromeCookies goos D rows with
  | Except.error e => Except.error e
  | Except.ok cookies => cookiesToCredentials cookies

/-- C4. A reachable store with zero rows for the domain fails with the
store-level message, which is not the li_at SecretMissing message the claim
requires. -/
theorem chromeEmptyStore_counterexample :
    extractChromeFromRows linuxOS (fun b => b) [] = Except.error chromeNoCookiesMsg ∧
    chromeNoCookiesMsg ≠ liAtMissingMsg := by
  exact ⟨rfl, by decide⟩

/-- C4 (amended). For every OS and key, extraction over an empty row set
fails with the store-level no-cookies-found error naming the browser, short
of ever reaching the normalizer that produces the SecretMissing li_at
error. -/
theorem chromeEmptyStore_error (goos : List Nat) (D : List Nat → List Nat) :
    extractChromeFromRows goos D [] = Except.error chromeNoCookiesMsg ∧
    chromeNoCookiesMsg ≠ liAtMissingMsg :=
  ⟨rfl, by decide⟩

end Lnk
